import Mathlib

/-!
Verification of the mip package manager core (src/mip/commands.py and
src/mip_package_manager/commands/platform_utils.py).

The Python code is shallowly embedded:
- `Package` / `Manifest` model the parsed `packages.json` manifest;
- `resolveAux` embeds `_build_dependency_graph`: the `.pkg` case is the
  function body, the `.deps` case is its loop over `package_info['dependencies']`.
  Python's shared mutable `visited` set is threaded explicitly; each recursive
  call receives `path[:]` (a copy), embedded as the `path ++ [name]` argument.
  A fuel parameter makes the recursion structural; `resolveFuel` is proved
  sufficient, so `.outOfFuel` never escapes `resolve`.
- `is_platform_compatible` / `select_best_package_variant` embed the
  functions of the same names from platform_utils.py.
- `planInstall` embeds the already-installed filter loop of `install_package`,
  and `install_package` embeds the overall command's effect on local state
  (downloads are modelled as succeeding; the claims settled here only concern
  behaviour up to and including planning).
-/

namespace Mip

/-- A package entry of the manifest: the resolver reads `pkg.get('name')` and
`package_info.get('dependencies', [])` (commands.py lines 78-92). -/
structure Package where
  name : String
  dependencies : List String
deriving DecidableEq, Repr

/-- The parsed manifest's package list, `manifest.get('packages', [])`. -/
abbrev Manifest := List Package

/-- The lookup loop of commands.py lines 77-81: first entry whose `name`
matches. -/
def findPackage (m : Manifest) (n : String) : Option Package :=
  m.find? (fun p => p.name == n)

/-- Dependency list of a name: the found entry's dependencies, `[]` when the
name has no manifest entry. -/
def depsOf (m : Manifest) (n : String) : List String :=
  match findPackage m n with
  | some p => p.dependencies
  | none => []

/-- The distinct package names occurring in the manifest. -/
def manifestNames (m : Manifest) : List String :=
  (m.map (fun p => p.name)).dedup

/-- Failure modes of `_build_dependency_graph`: the two `sys.exit(1)` sites
(circular dependency at lines 66-70, missing package at lines 83-85), plus the
fuel-exhaustion artifact of the embedding (proved unreachable for
`resolveFuel`). -/
inductive ResolveError where
  | cycleDetected (chain : String)
  | notFound (name : String)
  | outOfFuel
deriving DecidableEq, Repr

/-- The two recursion shapes of `_build_dependency_graph`: resolving one
package, and folding its dependency list left to right. -/
inductive ResolveCall where
  | pkg (name : String)
  | deps (ds : List String)
deriving DecidableEq, Repr

/-- The body of `_build_dependency_graph` (commands.py lines 49-98).
`.pkg name`: cycle check against `path`, visited check, manifest lookup, then
recurse over the dependencies with `name` added to `visited` and to the copied
`path`, finally appending `name`. `.deps ds`: the `for dep in ...` loop,
threading the shared `visited` set. -/
def resolveAux (m : Manifest) :
    Nat → ResolveCall → List String → List String →
      Except ResolveError (List String × List String)
  | 0, _, _, _ => .error .outOfFuel
  | fuel+1, .pkg name, visited, path =>
    if name ∈ path then
      .error (.cycleDetected (String.intercalate " -> " (path ++ [name])))
    else if name ∈ visited then
      .ok ([], visited)
    else
      match findPackage m name with
      | none => .error (.notFound name)
      | some pkg =>
        match resolveAux m fuel (.deps pkg.dependencies) (name :: visited) (path ++ [name]) with
        | .error e => .error e
        | .ok (res, visited') => .ok (res ++ [name], visited')
  | _+1, .deps [], visited, _ => .ok ([], visited)
  | fuel+1, .deps (d :: ds), visited, path =>
    match resolveAux m fuel (.pkg d) visited path with
    | .error e => .error e
    | .ok (r₁, v₁) =>
      match resolveAux m fuel (.deps ds) v₁ path with
      | .error e => .error e
      | .ok (r₂, v₂) => .ok (r₁ ++ r₂, v₂)

/-- Fuel cost ascribed to one package entry. -/
def pkgWeight (m : Manifest) (x : String) : Nat :=
  2 + (depsOf m x).length

/-- Remaining fuel cost given the set of already visited names. -/
def resolveCost (m : Manifest) (visited : List String) : Nat :=
  (((manifestNames m).filter (fun x => x ∉ visited)).map (pkgWeight m)).sum

/-- Fuel that the sufficiency lemma proves large enough for a full resolution. -/
def resolveFuel (m : Manifest) : Nat :=
  resolveCost m [] + 1

/-- `_build_dependency_graph(package_name, manifest, visited, path)`. -/
def build_dependency_graph (m : Manifest) (fuel : Nat) (name : String)
    (visited path : List String) : Except ResolveError (List String × List String) :=
  resolveAux m fuel (.pkg name) visited path

/-- The resolver as invoked by `install_package` (commands.py line 159):
fresh `visited` and `path`. -/
def resolve (m : Manifest) (name : String) : Except ResolveError (List String) :=
  match build_dependency_graph m (resolveFuel m) name [] [] with
  | .error e => .error e
  | .ok (order, _) => .ok order

/-- Reachability along dependency edges (reflexive-transitive). -/
inductive Reach (m : Manifest) : String → String → Prop where
  | refl (x : String) : Reach m x x
  | step {x d y : String} : d ∈ depsOf m x → Reach m d y → Reach m x y

/-- `a` is a (transitive) dependency of `b`: a dependency chain of length at
least one leads from `b` to `a`. -/
def TransDep (m : Manifest) (b a : String) : Prop :=
  ∃ d ∈ depsOf m b, Reach m d a

/-- Platform compatibility, platform_utils.py lines 57-83 (with the host tag
supplied explicitly, as the claims quantify over it). -/
def is_platform_compatible (packageTag hostTag : String) : Bool :=
  if packageTag == "any" then true
  else if packageTag == hostTag then true
  else if packageTag == "macosx_10_9_universal2" then
    hostTag == "macosx_10_9_x86_64" || hostTag == "macosx_11_0_arm64"
  else false

/-- `s.startswith(pre)`: embedded as a character-list prefix test (equivalent
to `String.startsWith`, but it reduces inside the kernel). -/
def strStartsWith (s pre : String) : Bool :=
  pre.toList.isPrefixOf s.toList

/-- A package variant record; the selection code reads only `platform_tag`,
`filename` keeps distinct variants distinguishable. -/
structure Variant where
  platform_tag : String
  filename : String
deriving DecidableEq, Repr

/-- The `compatible` local of `select_best_package_variant`
(platform_utils.py line 106). -/
def compatibleVariants (variants : List Variant) (hostTag : String) : List Variant :=
  variants.filter (fun v => is_platform_compatible v.platform_tag hostTag)

/-- `select_best_package_variant`, platform_utils.py lines 86-129: filter to
compatible variants, then first exact match, then (on a `macosx_` host) first
`macosx_10_9_universal2`, then first `any`, then the first compatible one. -/
def select_best_package_variant (variants : List Variant) (hostTag : String) :
    Option Variant :=
  if variants.isEmpty then none
  else
    if (compatibleVariants variants hostTag).isEmpty then none
    else
      match (compatibleVariants variants hostTag).filter (fun v => v.platform_tag == hostTag) with
      | v :: _ => some v
      | [] =>
        match (if strStartsWith hostTag "macosx_" then
                 (compatibleVariants variants hostTag).filter
                   (fun v => v.platform_tag == "macosx_10_9_universal2")
               else []) with
        | v :: _ => some v
        | [] =>
          match (compatibleVariants variants hostTag).filter (fun v => v.platform_tag == "any") with
          | v :: _ => some v
          | [] => (compatibleVariants variants hostTag).head?

/-- The already-installed filter loop of `install_package` (commands.py lines
165-170): iterate the resolved order, skipping names whose package directory
exists, appending the rest to `to_install`. -/
def planInstallLoop (installedPkgs : List String) :
    List String → List String → List String
  | acc, [] => acc
  | acc, n :: rest =>
    if n ∈ installedPkgs then planInstallLoop installedPkgs acc rest
    else planInstallLoop installedPkgs (acc ++ [n]) rest

/-- The install plan: resolved order filtered against local installed state. -/
def planInstall (order : List String) (installedPkgs : List String) : List String :=
  planInstallLoop installedPkgs [] order

/-- Local filesystem state touched by `install_package`:
whether `~/.mip/packages` exists, how many times `~/.mip/matlab/+mip` has been
(re)written by `copytree`, and which package directories exist. -/
structure FsState where
  packagesDirPresent : Bool
  matlabRefreshCount : Nat
  installedPkgs : List String
deriving DecidableEq, Repr

/-- `_ensure_mip_matlab_setup` (commands.py lines 19-46): when the source
`+mip` directory is present it removes and re-copies `~/.mip/matlab/+mip`,
otherwise it only warns. -/
def ensure_mip_matlab_setup (sourceMipPresent : Bool) (fs : FsState) : FsState :=
  if sourceMipPresent then
    { fs with matlabRefreshCount := fs.matlabRefreshCount + 1 }
  else fs

/-- Outcome of an `install_package` run (network fetch and archive extraction
are modelled as succeeding; the claims settled here concern behaviour up to
and including planning). -/
inductive InstallOutcome where
  | resolutionFailed (e : ResolveError)
  | nothingToDo
  | installed (pkgs : List String)
deriving DecidableEq, Repr

/-- `install_package` (commands.py lines 133-199): refresh the MATLAB
integration, `mkdir -p` the packages directory, fetch and parse the manifest,
resolve, filter out installed packages, then install the remaining ones in
order. Resolution failure (`sys.exit(1)` inside `_build_dependency_graph`)
aborts right after the resolve step. -/
def install_package (sourceMipPresent : Bool) (m : Manifest) (name : String)
    (fs : FsState) : FsState × InstallOutcome :=
  let fs1 := ensure_mip_matlab_setup sourceMipPresent fs
  let fs2 := { fs1 with packagesDirPresent := true }
  match resolve m name with
  | .error e => (fs2, .resolutionFailed e)
  | .ok order =>
    let toInstall := planInstall order fs2.installedPkgs
    if toInstall.isEmpty then (fs2, .nothingToDo)
    else ({ fs2 with installedPkgs := fs2.installedPkgs ++ toInstall },
          .installed toInstall)

/-- A list is a valid dependency-ordered extension of the visited set `V`:
each element's dependencies lie in `V` or strictly earlier in the list. -/
def TopoFrom (m : Manifest) : List String → List String → Prop
  | _, [] => True
  | V, y :: rest => (∀ d ∈ depsOf m y, d ∈ V) ∧ TopoFrom m (y :: V) rest

/-- The four-package example manifest of the spec:
`{A deps:[B,C], B deps:[D], C deps:[], D deps:[]}`. -/
def exampleManifest : Manifest :=
  [⟨"A", ["B", "C"]⟩, ⟨"B", ["D"]⟩, ⟨"C", []⟩, ⟨"D", []⟩]

/-- The two-package cyclic manifest of the spec: `{A deps:[B], B deps:[A]}`. -/
def cycleManifest : Manifest :=
  [⟨"A", ["B"]⟩, ⟨"B", ["A"]⟩]

/-- A manifest containing `B` only, with a self-loop (cycle away from the
request). -/
def selfLoopManifest : Manifest := [⟨"B", ["B"]⟩]

/-- An acyclic manifest whose only package references an undefined name. -/
def missingDepManifest : Manifest := [⟨"A", ["M"]⟩]

/-- A manifest with a cycle `A -> B -> A` reachable from `A`, but where the
dependency `M` listed before `B` has no manifest entry. -/
def cycleWithMissingManifest : Manifest := [⟨"A", ["M", "B"]⟩, ⟨"B", ["A"]⟩]

/-- A variant with the universal tag `any`. -/
def anyVariant : Variant := ⟨"any", "pkg-any.mhl"⟩

/-- A variant with the tag `macosx_10_9_universal2`. -/
def u2Variant : Variant := ⟨"macosx_10_9_universal2", "pkg-universal2.mhl"⟩

/-- A fresh home directory: no packages directory, no MATLAB integration,
nothing installed. -/
def freshFs : FsState := ⟨false, 0, []⟩

/-- A rank function witnessing that `exampleManifest` has no dependency
cycles. -/
def exampleRank (s : String) : Nat :=
  if s = "A" then 3 else if s = "B" then 2 else if s = "C" then 1 else 0

/-- A rank function witnessing that `missingDepManifest` has no dependency
cycles. -/
def missingDepRank (s : String) : Nat :=
  if s = "A" then 1 else 0

example : resolve exampleManifest "A" = .ok ["D", "B", "C", "A"] := by rfl

example : resolve cycleManifest "A" = .error (.cycleDetected "A -> B -> A") := by rfl

example : resolve ([] : Manifest) "A" = .error (.notFound "A") := by rfl

example :
    select_best_package_variant
      [⟨"macosx_10_9_x86_64", "f1"⟩, ⟨"macosx_10_9_universal2", "f2"⟩]
      "macosx_11_0_arm64" = some ⟨"macosx_10_9_universal2", "f2"⟩ := by rfl

example :
    select_best_package_variant [⟨"any", "fa"⟩, ⟨"macosx_10_9_universal2", "fu"⟩]
      "macosx_11_0_arm64" = some ⟨"macosx_10_9_universal2", "fu"⟩ := by rfl

theorem ensure_setup_installedPkgs (src : Bool) (fs : FsState) :
    (ensure_mip_matlab_setup src fs).installedPkgs = fs.installedPkgs := by
  unfold ensure_mip_matlab_setup
  split <;> rfl

theorem planInstallLoop_append (S acc order : List String) :
    planInstallLoop S acc order = acc ++ planInstallLoop S [] order := by
  induction order generalizing acc with
  | nil => simp [planInstallLoop]
  | cons n rest ih =>
    by_cases h : n ∈ S
    · simp only [planInstallLoop, if_pos h]
      exact ih acc
    · simp only [planInstallLoop, if_neg h]
      rw [ih (acc ++ [n]), ih ([] ++ [n])]
      simp

theorem planInstall_cons (S : List String) (n : String) (rest : List String) :
    planInstall (n :: rest) S =
      if n ∈ S then planInstall rest S else n :: planInstall rest S := by
  by_cases h : n ∈ S
  · simp only [planInstall, planInstallLoop, if_pos h]
  · simp only [planInstall, planInstallLoop, if_neg h]
    rw [planInstallLoop_append S ([] ++ [n]) rest]
    simp

theorem planInstall_eq_filter (order S : List String) :
    planInstall order S = order.filter (fun n => decide (n ∉ S)) := by
  induction order with
  | nil => rfl
  | cons n rest ih =>
    rw [planInstall_cons, ih]
    by_cases h : n ∈ S <;> simp [h]

/-- Claim C6: the install planner keeps exactly the names of the resolved
order that are not in the local install state, in order (a pure filter), and
an empty plan is the valid non-error outcome "nothing to do". -/
theorem plan_is_pure_filter (order S : List String) :
    planInstall order S = order.filter (fun n => decide (n ∉ S)) ∧
    (planInstall order S).Sublist order ∧
    (∀ x, x ∈ planInstall order S ↔ x ∈ order ∧ x ∉ S) ∧
    (∀ (src : Bool) (m : Manifest) (name : String) (fs : FsState),
      resolve m name = .ok order → fs.installedPkgs = S → planInstall order S = [] →
      (install_package src m name fs).2 = .nothingToDo) := by
  refine ⟨planInstall_eq_filter order S, ?_, ?_, ?_⟩
  · rw [planInstall_eq_filter]
    exact List.filter_sublist order
  · intro x
    rw [planInstall_eq_filter]
    simp
  · intro src m name fs hres hfs hplan
    simp [install_package, hres, ensure_setup_installedPkgs, hfs, hplan]

/-- Witness for C6 at a concrete input: everything already installed yields
the non-error "nothing to do" outcome. -/
theorem plan_is_pure_filter_witness :
    resolve exampleManifest "A" = .ok ["D", "B", "C", "A"] ∧
    planInstall ["D", "B", "C", "A"] ["D", "B", "C", "A"] = [] ∧
    (install_package true exampleManifest "A"
        ⟨true, 0, ["D", "B", "C", "A"]⟩).2 = .nothingToDo :=
  ⟨by rfl, by rfl,
    (plan_is_pure_filter ["D", "B", "C", "A"] ["D", "B", "C", "A"]).2.2.2 true
      exampleManifest "A" ⟨true, 0, ["D", "B", "C", "A"]⟩ (by rfl) rfl (by rfl)⟩

/-- Claim C9: planning is idempotent: re-planning an already computed plan
against the same local state changes nothing. -/
theorem plan_idempotent (order S : List String) :
    planInstall (planInstall order S) S = planInstall order S := by
  rw [planInstall_eq_filter, planInstall_eq_filter, List.filter_filter]
  simp

/-- Claim C7: `is_platform_compatible` holds exactly for `any`, an exact tag
match, or `macosx_10_9_universal2` against the two concrete macOS host tags;
in particular the `universal2` case is one-directional (instantiate the right
side at `hostTag = "macosx_10_9_universal2"`). -/
theorem is_platform_compatible_iff (p h : String) :
    is_platform_compatible p h = true ↔
      (p = "any" ∨ p = h ∨
        (p = "macosx_10_9_universal2" ∧
          (h = "macosx_10_9_x86_64" ∨ h = "macosx_11_0_arm64"))) := by
  unfold is_platform_compatible
  split_ifs with h1 h2 h3 <;> simp_all

theorem is_platform_compatible_self (t : String) :
    is_platform_compatible t t = true := by
  rw [is_platform_compatible_iff]
  right; left; rfl

/-- Claim C8: requesting a name with no manifest entry fails with
`NotFoundError` for that name, whatever else the manifest contains. -/
theorem resolve_notFound_of_missing (m : Manifest) (name : String)
    (hmiss : findPackage m name = none) :
    resolve m name = .error (.notFound name) := by
  unfold resolve build_dependency_graph resolveFuel
  simp [resolveAux, hmiss]

/-- Witness for C8: a name absent from a manifest that contains a cycle
elsewhere. -/
theorem resolve_notFound_of_missing_witness :
    findPackage selfLoopManifest "A" = none ∧
    resolve selfLoopManifest "A" = .error (.notFound "A") :=
  ⟨by rfl, resolve_notFound_of_missing selfLoopManifest "A" (by rfl)⟩

theorem not_isEmpty_of_mem {α : Type} {l : List α} {a : α} (h : a ∈ l) :
    ¬l.isEmpty = true := by
  cases l
  · cases h
  · simp

theorem mem_compat_of_filter_cons {vs : List Variant} {host : String}
    {p : Variant → Bool} {v : Variant} {rest : List Variant}
    (h : (compatibleVariants vs host).filter p = v :: rest) :
    v ∈ compatibleVariants vs host :=
  (List.mem_filter.mp (h ▸ List.mem_cons_self v rest)).1

theorem select_eq_none_of_no_compatible {vs : List Variant} {host : String}
    (hnone : compatibleVariants vs host = []) :
    select_best_package_variant vs host = none := by
  unfold select_best_package_variant
  by_cases h0 : vs.isEmpty = true
  · rw [if_pos h0]
  · rw [if_neg h0, if_pos (by rw [hnone]; rfl)]

theorem select_of_exact {vs : List Variant} {host : String} {v : Variant}
    {rest : List Variant}
    (hexact : (compatibleVariants vs host).filter
        (fun w => w.platform_tag == host) = v :: rest) :
    select_best_package_variant vs host = some v := by
  have hvc : v ∈ compatibleVariants vs host := mem_compat_of_filter_cons hexact
  have h1 : ¬vs.isEmpty = true := not_isEmpty_of_mem (List.mem_filter.mp hvc).1
  have h2 : ¬(compatibleVariants vs host).isEmpty = true := not_isEmpty_of_mem hvc
  simp only [select_best_package_variant, if_neg h1, if_neg h2, hexact]

theorem select_of_u2 {vs : List Variant} {host : String} {v : Variant}
    {rest : List Variant}
    (hexact : (compatibleVariants vs host).filter
        (fun w => w.platform_tag == host) = [])
    (hmac : strStartsWith host "macosx_" = true)
    (hu2 : (compatibleVariants vs host).filter
        (fun w => w.platform_tag == "macosx_10_9_universal2") = v :: rest) :
    select_best_package_variant vs host = some v := by
  have hvc : v ∈ compatibleVariants vs host := mem_compat_of_filter_cons hu2
  have h1 : ¬vs.isEmpty = true := not_isEmpty_of_mem (List.mem_filter.mp hvc).1
  have h2 : ¬(compatibleVariants vs host).isEmpty = true := not_isEmpty_of_mem hvc
  simp only [select_best_package_variant, if_neg h1, if_neg h2, hexact, hmac,
    if_true, hu2]

theorem select_of_any {vs : List Variant} {host : String} {v : Variant}
    {rest : List Variant}
    (hexact : (compatibleVariants vs host).filter
        (fun w => w.platform_tag == host) = [])
    (hu2 : (if strStartsWith host "macosx_" then
              (compatibleVariants vs host).filter
                (fun w => w.platform_tag == "macosx_10_9_universal2")
            else []) = ([] : List Variant))
    (hany : (compatibleVariants vs host).filter
        (fun w => w.platform_tag == "any") = v :: rest) :
    select_best_package_variant vs host = some v := by
  have hvc : v ∈ compatibleVariants vs host := mem_compat_of_filter_cons hany
  have h1 : ¬vs.isEmpty = true := not_isEmpty_of_mem (List.mem_filter.mp hvc).1
  have h2 : ¬(compatibleVariants vs host).isEmpty = true := not_isEmpty_of_mem hvc
  simp only [select_best_package_variant, if_neg h1, if_neg h2, hexact, hu2, hany]

theorem select_fallback {vs : List Variant} {host : String} {v : Variant}
    {rest : List Variant}
    (hexact : (compatibleVariants vs host).filter
        (fun w => w.platform_tag == host) = [])
    (hu2 : (if strStartsWith host "macosx_" then
              (compatibleVariants vs host).filter
                (fun w => w.platform_tag == "macosx_10_9_universal2")
            else []) = ([] : List Variant))
    (hany : (compatibleVariants vs host).filter
        (fun w => w.platform_tag == "any") = [])
    (hcomp : compatibleVariants vs host = v :: rest) :
    select_best_package_variant vs host = some v := by
  have hvc : v ∈ compatibleVariants vs host := by
    rw [hcomp]; exact List.mem_cons_self v rest
  have h1 : ¬vs.isEmpty = true := not_isEmpty_of_mem (List.mem_filter.mp hvc).1
  have h2 : ¬(compatibleVariants vs host).isEmpty = true := not_isEmpty_of_mem hvc
  simp only [select_best_package_variant, if_neg h1, if_neg h2, hexact, hu2, hany]
  rw [hcomp]
  rfl

/-- Claim C10: a returned variant always comes from the input sequence and is
platform-compatible with the host tag. -/
theorem select_best_variant_sound (vs : List Variant) (host : String) (v : Variant)
    (hsel : select_best_package_variant vs host = some v) :
    v ∈ vs ∧ is_platform_compatible v.platform_tag host = true := by
  suffices h : v ∈ compatibleVariants vs host by
    exact ⟨(List.mem_filter.mp h).1, (List.mem_filter.mp h).2⟩
  unfold select_best_package_variant at hsel
  split at hsel
  · cases hsel
  split at hsel
  · cases hsel
  split at hsel
  next w rest heq =>
    cases hsel
    exact mem_compat_of_filter_cons heq
  next heq =>
    split at hsel
    next w rest heq2 =>
      cases hsel
      by_cases hmac : strStartsWith host "macosx_" = true
      · rw [if_pos hmac] at heq2
        exact mem_compat_of_filter_cons heq2
      · rw [if_neg hmac] at heq2
        cases heq2
    next heq2 =>
      split at hsel
      next w rest heq3 =>
        cases hsel
        exact mem_compat_of_filter_cons heq3
      next heq3 =>
        obtain ⟨ys, hys⟩ := List.head?_eq_some_iff.mp hsel
        rw [hys]
        exact List.mem_cons_self v ys

/-- Witness for C10 at a concrete input. -/
theorem select_best_variant_sound_witness :
    select_best_package_variant [anyVariant] "linux_x86_64" = some anyVariant ∧
    anyVariant ∈ [anyVariant] ∧
    is_platform_compatible anyVariant.platform_tag "linux_x86_64" = true :=
  ⟨by rfl,
    (select_best_variant_sound [anyVariant] "linux_x86_64" anyVariant (by rfl)).1,
    (select_best_variant_sound [anyVariant] "linux_x86_64" anyVariant (by rfl)).2⟩

theorem compat_filter_exact (vs : List Variant) (host : String) :
    (compatibleVariants vs host).filter (fun w => w.platform_tag == host) =
      vs.filter (fun w => w.platform_tag == host) := by
  unfold compatibleVariants
  rw [List.filter_filter]
  apply List.filter_congr
  intro w _
  by_cases h : w.platform_tag == host
  · have htag : w.platform_tag = host := by simpa using h
    rw [h, htag, is_platform_compatible_self]
    rfl
  · simp [h]

theorem filter_eq_cons_of_find? {α : Type} {l : List α} {p : α → Bool} {a : α}
    (h : l.find? p = some a) : ∃ rest, l.filter p = a :: rest := by
  have hh := List.filter_head? p l
  rw [h] at hh
  exact List.head?_eq_some_iff.mp hh

theorem no_exact_filter {vs : List Variant} {host : String}
    (h : ∀ w ∈ vs, w.platform_tag ≠ host) :
    (compatibleVariants vs host).filter (fun w => w.platform_tag == host) = [] := by
  rw [compat_filter_exact, List.filter_eq_nil_iff]
  intro w hw
  simpa using h w hw

theorem no_u2_scrutinee {vs : List Variant} {host : String}
    (h : strStartsWith host "macosx_" = false ∨
      (∀ w ∈ compatibleVariants vs host,
        w.platform_tag ≠ "macosx_10_9_universal2")) :
    (if strStartsWith host "macosx_" then
       (compatibleVariants vs host).filter
         (fun w => w.platform_tag == "macosx_10_9_universal2")
     else []) = ([] : List Variant) := by
  rcases h with h | h
  · rw [if_neg (by simp [h])]
  · have hf : (compatibleVariants vs host).filter
        (fun w => w.platform_tag == "macosx_10_9_universal2") = [] := by
      rw [List.filter_eq_nil_iff]
      intro w hw
      simpa using h w hw
    cases hsw : strStartsWith host "macosx_" <;> simp [hf]

/-- Claim C3: `select_best_package_variant` filters to compatible variants and
returns `none` when none is compatible (in particular on an empty sequence);
otherwise it prefers, in order: the first exact host-tag match in input order,
then (on a `macosx_`-prefixed host) the first compatible
`macosx_10_9_universal2` variant, then the first compatible `any` variant,
then the first remaining compatible variant. -/
theorem select_best_variant_priority (vs : List Variant) (host : String) :
    ((∀ v ∈ vs, is_platform_compatible v.platform_tag host = false) →
      select_best_package_variant vs host = none) ∧
    (∀ v, vs.find? (fun w => w.platform_tag == host) = some v →
      select_best_package_variant vs host = some v) ∧
    (∀ v, (∀ w ∈ vs, w.platform_tag ≠ host) →
      strStartsWith host "macosx_" = true →
      (compatibleVariants vs host).find?
          (fun w => w.platform_tag == "macosx_10_9_universal2") = some v →
      select_best_package_variant vs host = some v) ∧
    (∀ v, (∀ w ∈ vs, w.platform_tag ≠ host) →
      (strStartsWith host "macosx_" = false ∨
        (∀ w ∈ compatibleVariants vs host,
          w.platform_tag ≠ "macosx_10_9_universal2")) →
      (compatibleVariants vs host).find? (fun w => w.platform_tag == "any") = some v →
      select_best_package_variant vs host = some v) ∧
    (∀ v rest, (∀ w ∈ vs, w.platform_tag ≠ host) →
      (strStartsWith host "macosx_" = false ∨
        (∀ w ∈ compatibleVariants vs host,
          w.platform_tag ≠ "macosx_10_9_universal2")) →
      (∀ w ∈ compatibleVariants vs host, w.platform_tag ≠ "any") →
      compatibleVariants vs host = v :: rest →
      select_best_package_variant vs host = some v) := by
  refine ⟨?_, ?_, ?_, ?_, ?_⟩
  · intro hno
    apply select_eq_none_of_no_compatible
    rw [compatibleVariants, List.filter_eq_nil_iff]
    intro w hw
    simp [hno w hw]
  · intro v hfind
    obtain ⟨rest, hrest⟩ := filter_eq_cons_of_find? hfind
    exact select_of_exact (by rw [compat_filter_exact, hrest])
  · intro v hnoex hmac hfind
    obtain ⟨rest, hrest⟩ := filter_eq_cons_of_find? hfind
    exact select_of_u2 (no_exact_filter hnoex) hmac hrest
  · intro v hnoex hu2 hfind
    obtain ⟨rest, hrest⟩ := filter_eq_cons_of_find? hfind
    exact select_of_any (no_exact_filter hnoex) (no_u2_scrutinee hu2) hrest
  · intro v rest hnoex hu2 hany hcomp
    refine select_fallback (no_exact_filter hnoex) (no_u2_scrutinee hu2) ?_ hcomp
    rw [List.filter_eq_nil_iff]
    intro w hw
    simpa using hany w hw

/-- Witness for C3 at the spec's example: host `macosx_11_0_arm64` with an
x86_64 variant and a universal2 variant selects the universal2 one. -/
theorem select_best_variant_priority_witness :
    select_best_package_variant
        [⟨"macosx_10_9_x86_64", "f1"⟩, ⟨"macosx_10_9_universal2", "f2"⟩]
        "macosx_11_0_arm64" = some ⟨"macosx_10_9_universal2", "f2"⟩ ∧
    select_best_package_variant ([] : List Variant) "macosx_11_0_arm64" = none :=
  ⟨(select_best_variant_priority
      [⟨"macosx_10_9_x86_64", "f1"⟩, ⟨"macosx_10_9_universal2", "f2"⟩]
      "macosx_11_0_arm64").2.2.1 ⟨"macosx_10_9_universal2", "f2"⟩
      (by decide) (by rfl) (by rfl),
   (select_best_variant_priority ([] : List Variant) "macosx_11_0_arm64").1
      (by intro v hv; cases hv)⟩

/-- Counterexample to claim C4 as stated: with an `any` variant and a
`macosx_10_9_universal2` variant, no exact match, and host
`macosx_11_0_arm64`, the code returns the universal2 variant, not the `any`
variant. -/
theorem select_any_over_universal2_cex :
    select_best_package_variant [anyVariant, u2Variant] "macosx_11_0_arm64" =
      some u2Variant ∧
    u2Variant.platform_tag ≠ "any" ∧ anyVariant.platform_tag = "any" :=
  ⟨by rfl, by decide, by rfl⟩

/-- Claim C4, amended: exact match beats `macosx_10_9_universal2`, which beats
`any` when compatible with the host; with both an `any` and a universal2
variant present and no exact match, the universal2 variant wins exactly on the
two hosts it is compatible with (`macosx_10_9_x86_64`, `macosx_11_0_arm64`),
and the `any` variant wins on every other host; `none` is returned when the
sequence is empty or nothing is compatible. -/
theorem select_universal2_over_any (vs : List Variant) (host : String) :
    ((∀ v ∈ vs, is_platform_compatible v.platform_tag host = false) →
      select_best_package_variant vs host = none) ∧
    ((∃ v ∈ vs, v.platform_tag = "any") →
      (∃ v ∈ vs, v.platform_tag = "macosx_10_9_universal2") →
      (∀ v ∈ vs, v.platform_tag ≠ host) →
      (((host = "macosx_10_9_x86_64" ∨ host = "macosx_11_0_arm64") →
          ∃ v, select_best_package_variant vs host = some v ∧
            v.platform_tag = "macosx_10_9_universal2") ∧
        (host ≠ "macosx_10_9_x86_64" → host ≠ "macosx_11_0_arm64" →
          ∃ v, select_best_package_variant vs host = some v ∧
            v.platform_tag = "any"))) := by
  constructor
  · intro hno
    apply select_eq_none_of_no_compatible
    rw [compatibleVariants, List.filter_eq_nil_iff]
    intro w hw
    simp [hno w hw]
  · intro hany hu2 hnoex
    obtain ⟨va, hva, hvat⟩ := hany
    obtain ⟨vu, hvu, hvut⟩ := hu2
    constructor
    · intro hhost
      have hmac : strStartsWith host "macosx_" = true := by
        rcases hhost with rfl | rfl <;> rfl
      have hvuc : vu ∈ compatibleVariants vs host := by
        rw [compatibleVariants, List.mem_filter]
        refine ⟨hvu, ?_⟩
        rw [hvut, is_platform_compatible_iff]
        right; right
        exact ⟨rfl, hhost⟩
      have hne : (compatibleVariants vs host).filter
          (fun w => w.platform_tag == "macosx_10_9_universal2") ≠ [] := by
        intro hnil
        rw [List.filter_eq_nil_iff] at hnil
        exact hnil vu hvuc (by simp [hvut])
      obtain ⟨w, rest, hw⟩ := List.exists_cons_of_ne_nil hne
      refine ⟨w, select_of_u2 (no_exact_filter hnoex) hmac hw, ?_⟩
      have := (List.mem_filter.mp (hw ▸ List.mem_cons_self w rest)).2
      simpa using this
    · intro hne1 hne2
      have hhu2 : host ≠ "macosx_10_9_universal2" := by
        intro hh
        exact hnoex vu hvu (by rw [hvut, hh])
      have hscrut : ∀ w ∈ compatibleVariants vs host,
          w.platform_tag ≠ "macosx_10_9_universal2" := by
        intro w hw hwt
        have hc := (List.mem_filter.mp hw).2
        rw [hwt, is_platform_compatible_iff] at hc
        rcases hc with hc | hc | hc
        · exact absurd hc (by decide)
        · exact hhu2 hc.symm
        · rcases hc.2 with hc2 | hc2
          · exact hne1 hc2
          · exact hne2 hc2
      have hvac : va ∈ compatibleVariants vs host := by
        rw [compatibleVariants, List.mem_filter]
        refine ⟨hva, ?_⟩
        rw [hvat]
        rfl
      have hne : (compatibleVariants vs host).filter
          (fun w => w.platform_tag == "any") ≠ [] := by
        intro hnil
        rw [List.filter_eq_nil_iff] at hnil
        exact hnil va hvac (by simp [hvat])
      obtain ⟨w, rest, hw⟩ := List.exists_cons_of_ne_nil hne
      refine ⟨w, select_of_any (no_exact_filter hnoex)
        (no_u2_scrutinee (Or.inr hscrut)) hw, ?_⟩
      have := (List.mem_filter.mp (hw ▸ List.mem_cons_self w rest)).2
      simpa using this

/-- Counterexample to claim C5 as stated: on a fresh home directory, a run
whose resolution fails has already created the packages directory and
rewritten the MATLAB integration directory before the resolver aborts, so
local directories were created/modified. -/
theorem install_mutates_before_resolution_cex :
    (install_package true [] "A" freshFs).2 = .resolutionFailed (.notFound "A") ∧
    (install_package true [] "A" freshFs).1 ≠ freshFs ∧
    (install_package true [] "A" freshFs).1.packagesDirPresent = true ∧
    freshFs.packagesDirPresent = false ∧
    (install_package true [] "A" freshFs).1.matlabRefreshCount = 1 :=
  ⟨by rfl, by decide, by rfl, by rfl, by rfl⟩

/-- Claim C5, amended: when resolution fails, the run aborts before any
package is downloaded or installed — the installed-package set is unchanged
and the outcome carries the resolution error — but the MATLAB-integration
refresh and the creation of the packages directory precede resolution and do
happen. -/
theorem install_resolution_failure_state (src : Bool) (m : Manifest)
    (name : String) (fs : FsState) (e : ResolveError)
    (hres : resolve m name = .error e) :
    install_package src m name fs =
      ({ ensure_mip_matlab_setup src fs with packagesDirPresent := true },
        .resolutionFailed e) ∧
    (install_package src m name fs).1.installedPkgs = fs.installedPkgs := by
  constructor
  · simp [install_package, hres]
  · simp [install_package, hres, ensure_setup_installedPkgs]

/-- Witness for the amended C5 at a concrete input. -/
theorem install_resolution_failure_state_witness :
    resolve cycleManifest "A" = .error (.cycleDetected "A -> B -> A") ∧
    install_package true cycleManifest "A" freshFs =
      ({ ensure_mip_matlab_setup true freshFs with packagesDirPresent := true },
        .resolutionFailed (.cycleDetected "A -> B -> A")) ∧
    (install_package true cycleManifest "A" freshFs).1.installedPkgs =
      freshFs.installedPkgs :=
  ⟨by rfl,
    (install_resolution_failure_state true cycleManifest "A" freshFs
      (.cycleDetected "A -> B -> A") (by rfl)).1,
    (install_resolution_failure_state true cycleManifest "A" freshFs
      (.cycleDetected "A -> B -> A") (by rfl)).2⟩

theorem depsOf_eq_of_find {m : Manifest} {n : String} {p : Package}
    (h : findPackage m n = some p) : depsOf m n = p.dependencies := by
  unfold depsOf
  rw [h]

theorem mem_manifestNames_of_find {m : Manifest} {n : String} {p : Package}
    (h : findPackage m n = some p) : n ∈ manifestNames m := by
  have hmem : p ∈ m := List.mem_of_find?_eq_some h
  have hname : p.name = n := by simpa using List.find?_some h
  rw [manifestNames, List.mem_dedup]
  exact hname ▸ List.mem_map_of_mem (fun q => q.name) hmem

theorem mem_manifestNames_of_depsOf {m : Manifest} {x d : String}
    (h : d ∈ depsOf m x) : x ∈ manifestNames m := by
  unfold depsOf at h
  cases hf : findPackage m x with
  | none => rw [hf] at h; cases h
  | some p => exact mem_manifestNames_of_find hf

theorem Reach.snoc {m : Manifest} {x y d : String}
    (hr : Reach m x y) (hd : d ∈ depsOf m y) : Reach m x d := by
  induction hr with
  | refl z => exact Reach.step hd (Reach.refl d)
  | step h _ ih => exact Reach.step h (ih hd)

theorem found_of_reach {m : Manifest}
    (hcl : ∀ x ∈ manifestNames m, ∀ d ∈ depsOf m x, (findPackage m d).isSome) :
    ∀ {x y : String}, Reach m x y →
      (findPackage m x).isSome → (findPackage m y).isSome := by
  intro x y h
  induction h with
  | refl z => exact id
  | step hd _ ih =>
    intro _
    exact ih (hcl _ (mem_manifestNames_of_depsOf hd) _ hd)

theorem rank_le_of_reach {m : Manifest} {r : String → Nat}
    (hr : ∀ x ∈ manifestNames m, ∀ d ∈ depsOf m x, r d < r x)
    {x y : String} (h : Reach m x y) : r y ≤ r x := by
  induction h with
  | refl z => exact le_refl _
  | step hd _ ih =>
    exact le_trans ih (le_of_lt (hr _ (mem_manifestNames_of_depsOf hd) _ hd))

/-- Exhibiting a strictly decreasing rank along dependency edges proves a
manifest has no dependency cycles. -/
theorem acyclic_of_rank {m : Manifest} (r : String → Nat)
    (hr : ∀ x ∈ manifestNames m, ∀ d ∈ depsOf m x, r d < r x) :
    ∀ x, ¬TransDep m x x := by
  rintro x ⟨d, hd, hreach⟩
  have h1 : r x ≤ r d := rank_le_of_reach hr hreach
  have h2 : r d < r x := hr _ (mem_manifestNames_of_depsOf hd) _ hd
  omega

theorem resolveAux_zero (m : Manifest) (c : ResolveCall) (v p : List String) :
    resolveAux m 0 c v p = .error .outOfFuel := rfl

theorem resolveAux_deps_nil (m : Manifest) (fuel : Nat) (v p : List String) :
    resolveAux m (fuel + 1) (.deps []) v p = .ok ([], v) := rfl

theorem resolveAux_pkg_ok {m : Manifest} {fuel : Nat} {name : String}
    {visited path out v' : List String}
    (h : resolveAux m (fuel + 1) (.pkg name) visited path = .ok (out, v')) :
    name ∉ path ∧
    ((name ∈ visited ∧ out = [] ∧ v' = visited) ∨
      (name ∉ visited ∧ ∃ pkg res, findPackage m name = some pkg ∧
        resolveAux m fuel (.deps pkg.dependencies) (name :: visited)
          (path ++ [name]) = .ok (res, v') ∧
        out = res ++ [name])) := by
  simp only [resolveAux] at h
  by_cases hp : name ∈ path
  · rw [if_pos hp] at h; cases h
  rw [if_neg hp] at h
  refine ⟨hp, ?_⟩
  by_cases hv : name ∈ visited
  · rw [if_pos hv] at h
    simp only [Except.ok.injEq, Prod.mk.injEq] at h
    exact Or.inl ⟨hv, h.1.symm, h.2.symm⟩
  rw [if_neg hv] at h
  split at h
  · cases h
  · rename_i pkg hf
    split at h
    · cases h
    · rename_i res vv hr
      simp only [Except.ok.injEq, Prod.mk.injEq] at h
      exact Or.inr ⟨hv, pkg, res, hf, h.2 ▸ hr, h.1.symm⟩

theorem resolveAux_deps_nil_ok {m : Manifest} {fuel : Nat}
    {visited path out v' : List String}
    (h : resolveAux m (fuel + 1) (.deps []) visited path = .ok (out, v')) :
    out = [] ∧ v' = visited := by
  rw [resolveAux_deps_nil] at h
  simp only [Except.ok.injEq, Prod.mk.injEq] at h
  exact ⟨h.1.symm, h.2.symm⟩

theorem resolveAux_deps_cons_ok {m : Manifest} {fuel : Nat} {d : String}
    {ds : List String} {visited path out v' : List String}
    (h : resolveAux m (fuel + 1) (.deps (d :: ds)) visited path = .ok (out, v')) :
    ∃ r₁ v₁ r₂, resolveAux m fuel (.pkg d) visited path = .ok (r₁, v₁) ∧
      resolveAux m fuel (.deps ds) v₁ path = .ok (r₂, v') ∧ out = r₁ ++ r₂ := by
  simp only [resolveAux] at h
  split at h
  · cases h
  · rename_i r₁ v₁ h1
    split at h
    · cases h
    · rename_i r₂ v₂ h2
      simp only [Except.ok.injEq, Prod.mk.injEq] at h
      exact ⟨r₁, v₁, r₂, h1, h.2 ▸ h2, h.1.symm⟩

theorem resolveAux_pkg_err {m : Manifest} {fuel : Nat} {name : String}
    {visited path : List String} {e : ResolveError}
    (h : resolveAux m (fuel + 1) (.pkg name) visited path = .error e) :
    (name ∈ path ∧
      e = .cycleDetected (String.intercalate " -> " (path ++ [name]))) ∨
    (name ∉ path ∧ name ∉ visited ∧ findPackage m name = none ∧
      e = .notFound name) ∨
    (name ∉ path ∧ name ∉ visited ∧ ∃ pkg, findPackage m name = some pkg ∧
      resolveAux m fuel (.deps pkg.dependencies) (name :: visited)
        (path ++ [name]) = .error e) := by
  simp only [resolveAux] at h
  by_cases hp : name ∈ path
  · rw [if_pos hp] at h
    simp only [Except.error.injEq] at h
    exact Or.inl ⟨hp, h.symm⟩
  rw [if_neg hp] at h
  by_cases hv : name ∈ visited
  · rw [if_pos hv] at h; cases h
  rw [if_neg hv] at h
  split at h
  · rename_i hf
    simp only [Except.error.injEq] at h
    exact Or.inr (Or.inl ⟨hp, hv, hf, h.symm⟩)
  · rename_i pkg hf
    split at h
    · rename_i e' hr
      simp only [Except.error.injEq] at h
      exact Or.inr (Or.inr ⟨hp, hv, pkg, hf, h ▸ hr⟩)
    · rename_i res vv hr
      cases h

theorem resolveAux_deps_cons_err {m : Manifest} {fuel : Nat} {d : String}
    {ds : List String} {visited path : List String} {e : ResolveError}
    (h : resolveAux m (fuel + 1) (.deps (d :: ds)) visited path = .error e) :
    resolveAux m fuel (.pkg d) visited path = .error e ∨
    (∃ r₁ v₁, resolveAux m fuel (.pkg d) visited path = .ok (r₁, v₁) ∧
      resolveAux m fuel (.deps ds) v₁ path = .error e) := by
  simp only [resolveAux] at h
  split at h
  · rename_i e' h1
    simp only [Except.error.injEq] at h
    exact Or.inl (h ▸ h1)
  · rename_i r₁ v₁ h1
    split at h
    · rename_i e' h2
      simp only [Except.error.injEq] at h
      exact Or.inr ⟨r₁, v₁, h1, h ▸ h2⟩
    · rename_i r₂ v₂ h2
      cases h

theorem resolveAux_visited_spec :
    ∀ (fuel : Nat) (m : Manifest),
      (∀ name visited path out v',
        resolveAux m fuel (.pkg name) visited path = .ok (out, v') →
        ∀ x, x ∈ v' ↔ x ∈ visited ∨ x ∈ out) ∧
      (∀ ds visited path out v',
        resolveAux m fuel (.deps ds) visited path = .ok (out, v') →
        ∀ x, x ∈ v' ↔ x ∈ visited ∨ x ∈ out) := by
  intro fuel m
  induction fuel with
  | zero =>
    constructor <;> (intro _ _ _ _ _ h; exact absurd h (by rw [resolveAux_zero]; simp))
  | succ fuel ih =>
    obtain ⟨ihp, ihd⟩ := ih
    constructor
    · intro name visited path out v' h x
      obtain ⟨hp, hcase⟩ := resolveAux_pkg_ok h
      rcases hcase with ⟨hv, rfl, rfl⟩ | ⟨hv, pkg, res, hf, hrec, rfl⟩
      · simp
      · rw [ihd _ _ _ _ _ hrec x]
        simp only [List.mem_cons, List.mem_append, List.mem_singleton]
        tauto
    · intro ds visited path out v' h x
      cases ds with
      | nil =>
        obtain ⟨rfl, rfl⟩ := resolveAux_deps_nil_ok h
        simp
      | cons d ds =>
        obtain ⟨r₁, v₁, r₂, h1, h2, rfl⟩ := resolveAux_deps_cons_ok h
        rw [ihd _ _ _ _ _ h2 x, ihp _ _ _ _ _ h1 x]
        simp only [List.mem_append]
        tauto

theorem resolveAux_visited_iff {m : Manifest} {fuel : Nat} {c : ResolveCall}
    {visited path out v' : List String}
    (h : resolveAux m fuel c visited path = .ok (out, v')) :
    ∀ x, x ∈ v' ↔ x ∈ visited ∨ x ∈ out := by
  cases c with
  | pkg name => exact (resolveAux_visited_spec fuel m).1 name visited path out v' h
  | deps ds => exact (resolveAux_visited_spec fuel m).2 ds visited path out v' h

theorem resolveAux_visited_mono {m : Manifest} {fuel : Nat} {c : ResolveCall}
    {visited path out v' : List String}
    (h : resolveAux m fuel c visited path = .ok (out, v')) :
    ∀ x ∈ visited, x ∈ v' := by
  intro x hx
  exact (resolveAux_visited_iff h x).mpr (Or.inl hx)

theorem resolveAux_nodup_spec :
    ∀ (fuel : Nat) (m : Manifest),
      (∀ name visited path out v',
        resolveAux m fuel (.pkg name) visited path = .ok (out, v') →
        out.Nodup ∧ ∀ x ∈ out, x ∉ visited) ∧
      (∀ ds visited path out v',
        resolveAux m fuel (.deps ds) visited path = .ok (out, v') →
        out.Nodup ∧ ∀ x ∈ out, x ∉ visited) := by
  intro fuel m
  induction fuel with
  | zero =>
    constructor <;> (intro _ _ _ _ _ h; exact absurd h (by rw [resolveAux_zero]; simp))
  | succ fuel ih =>
    obtain ⟨ihp, ihd⟩ := ih
    constructor
    · intro name visited path out v' h
      obtain ⟨hp, hcase⟩ := resolveAux_pkg_ok h
      rcases hcase with ⟨hv, rfl, rfl⟩ | ⟨hv, pkg, res, hf, hrec, rfl⟩
      · simp
      · obtain ⟨hnd, hdisj⟩ := ihd _ _ _ _ _ hrec
        have hname : name ∉ res := fun hx => (hdisj name hx) (List.mem_cons_self _ _)
        constructor
        · rw [List.nodup_append]
          refine ⟨hnd, List.nodup_singleton name, ?_⟩
          intro a ha hb
          rw [List.mem_singleton] at hb
          exact hname (hb ▸ ha)
        · intro x hx
          rcases List.mem_append.mp hx with hx | hx
          · exact fun hxv => (hdisj x hx) (List.mem_cons_of_mem _ hxv)
          · rw [List.mem_singleton] at hx
            exact hx ▸ hv
    · intro ds visited path out v' h
      cases ds with
      | nil =>
        obtain ⟨rfl, rfl⟩ := resolveAux_deps_nil_ok h
        simp
      | cons d ds =>
        obtain ⟨r₁, v₁, r₂, h1, h2, rfl⟩ := resolveAux_deps_cons_ok h
        obtain ⟨hnd1, hdisj1⟩ := ihp _ _ _ _ _ h1
        obtain ⟨hnd2, hdisj2⟩ := ihd _ _ _ _ _ h2
        have hv1 := resolveAux_visited_iff h1
        constructor
        · rw [List.nodup_append]
          refine ⟨hnd1, hnd2, ?_⟩
          intro a ha hb
          exact (hdisj2 a hb) ((hv1 a).mpr (Or.inr ha))
        · intro x hx
          rcases List.mem_append.mp hx with hx | hx
          · exact hdisj1 x hx
          · exact fun hxv => (hdisj2 x hx) ((hv1 x).mpr (Or.inl hxv))

theorem resolveAux_sound_spec :
    ∀ (fuel : Nat) (m : Manifest),
      (∀ name visited path out v',
        resolveAux m fuel (.pkg name) visited path = .ok (out, v') →
        ∀ x ∈ out, Reach m name x) ∧
      (∀ ds visited path out v',
        resolveAux m fuel (.deps ds) visited path = .ok (out, v') →
        ∀ x ∈ out, ∃ d ∈ ds, Reach m d x) := by
  intro fuel m
  induction fuel with
  | zero =>
    constructor <;> (intro _ _ _ _ _ h; exact absurd h (by rw [resolveAux_zero]; simp))
  | succ fuel ih =>
    obtain ⟨ihp, ihd⟩ := ih
    constructor
    · intro name visited path out v' h x hx
      obtain ⟨hp, hcase⟩ := resolveAux_pkg_ok h
      rcases hcase with ⟨hv, rfl, rfl⟩ | ⟨hv, pkg, res, hf, hrec, rfl⟩
      · cases hx
      · rcases List.mem_append.mp hx with hx | hx
        · obtain ⟨d, hd, hr⟩ := ihd _ _ _ _ _ hrec x hx
          exact Reach.step ((depsOf_eq_of_find hf) ▸ hd) hr
        · rw [List.mem_singleton] at hx
          subst hx
          exact Reach.refl x
    · intro ds visited path out v' h x hx
      cases ds with
      | nil =>
        obtain ⟨rfl, rfl⟩ := resolveAux_deps_nil_ok h
        cases hx
      | cons d ds =>
        obtain ⟨r₁, v₁, r₂, h1, h2, rfl⟩ := resolveAux_deps_cons_ok h
        rcases List.mem_append.mp hx with hx | hx
        · exact ⟨d, List.mem_cons_self _ _, ihp _ _ _ _ _ h1 x hx⟩
        · obtain ⟨d', hd', hr⟩ := ihd _ _ _ _ _ h2 x hx
          exact ⟨d', List.mem_cons_of_mem _ hd', hr⟩

theorem resolveAux_pkg_ok_not_mem_path {m : Manifest} {fuel : Nat} {name : String}
    {visited path out v' : List String}
    (h : resolveAux m fuel (.pkg name) visited path = .ok (out, v')) :
    name ∉ path := by
  cases fuel with
  | zero => exact absurd h (by rw [resolveAux_zero]; simp)
  | succ fuel => exact (resolveAux_pkg_ok h).1

theorem resolveAux_deps_not_mem_path :
    ∀ (fuel : Nat) (m : Manifest) (ds visited path out v' : List String),
      resolveAux m fuel (.deps ds) visited path = .ok (out, v') →
      ∀ d ∈ ds, d ∉ path := by
  intro fuel
  induction fuel with
  | zero =>
    intro m ds visited path out v' h
    exact absurd h (by rw [resolveAux_zero]; simp)
  | succ fuel ih =>
    intro m ds visited path out v' h d hd
    cases ds with
    | nil => cases hd
    | cons d0 ds =>
      obtain ⟨r₁, v₁, r₂, h1, h2, rfl⟩ := resolveAux_deps_cons_ok h
      rcases List.mem_cons.mp hd with rfl | hd
      · exact resolveAux_pkg_ok_not_mem_path h1
      · exact ih m ds v₁ path r₂ v' h2 d hd

theorem resolveAux_pkg_self_mem {m : Manifest} {fuel : Nat} {name : String}
    {visited path out v' : List String}
    (h : resolveAux m fuel (.pkg name) visited path = .ok (out, v')) :
    name ∈ v' := by
  cases fuel with
  | zero => exact absurd h (by rw [resolveAux_zero]; simp)
  | succ fuel =>
    obtain ⟨hp, hcase⟩ := resolveAux_pkg_ok h
    rcases hcase with ⟨hv, rfl, rfl⟩ | ⟨hv, pkg, res, hf, hrec, rfl⟩
    · exact hv
    · exact (resolveAux_visited_iff h name).mpr
        (Or.inr (List.mem_append_right res (List.mem_singleton.mpr rfl)))

theorem resolveAux_deps_mem_visited :
    ∀ (fuel : Nat) (m : Manifest) (ds visited path out v' : List String),
      resolveAux m fuel (.deps ds) visited path = .ok (out, v') →
      ∀ d ∈ ds, d ∈ v' := by
  intro fuel
  induction fuel with
  | zero =>
    intro m ds visited path out v' h
    exact absurd h (by rw [resolveAux_zero]; simp)
  | succ fuel ih =>
    intro m ds visited path out v' h d hd
    cases ds with
    | nil => cases hd
    | cons d0 ds =>
      obtain ⟨r₁, v₁, r₂, h1, h2, rfl⟩ := resolveAux_deps_cons_ok h
      rcases List.mem_cons.mp hd with rfl | hd
      · exact resolveAux_visited_mono h2 d (resolveAux_pkg_self_mem h1)
      · exact ih m ds v₁ path r₂ v' h2 d hd

theorem resolveAux_no_back_edge :
    ∀ (fuel : Nat) (m : Manifest),
      (∀ name visited path out v',
        resolveAux m fuel (.pkg name) visited path = .ok (out, v') →
        ∀ y ∈ out, ∀ d ∈ depsOf m y, d ∉ path) ∧
      (∀ ds visited path out v',
        resolveAux m fuel (.deps ds) visited path = .ok (out, v') →
        ∀ y ∈ out, ∀ d ∈ depsOf m y, d ∉ path) := by
  intro fuel m
  induction fuel with
  | zero =>
    constructor <;> (intro _ _ _ _ _ h; exact absurd h (by rw [resolveAux_zero]; simp))
  | succ fuel ih =>
    obtain ⟨ihp, ihd⟩ := ih
    constructor
    · intro name visited path out v' h y hy d hd
      obtain ⟨hp, hcase⟩ := resolveAux_pkg_ok h
      rcases hcase with ⟨hv, rfl, rfl⟩ | ⟨hv, pkg, res, hf, hrec, rfl⟩
      · cases hy
      · rcases List.mem_append.mp hy with hy | hy
        · intro hdp
          exact ihd _ _ _ _ _ hrec y hy d hd (List.mem_append_left _ hdp)
        · rw [List.mem_singleton] at hy
          subst hy
          have hd' : d ∈ pkg.dependencies := (depsOf_eq_of_find hf) ▸ hd
          intro hdp
          exact resolveAux_deps_not_mem_path fuel m _ _ _ _ _ hrec d hd'
            (List.mem_append_left _ hdp)
    · intro ds visited path out v' h y hy d hd
      cases ds with
      | nil =>
        obtain ⟨rfl, rfl⟩ := resolveAux_deps_nil_ok h
        cases hy
      | cons d0 ds =>
        obtain ⟨r₁, v₁, r₂, h1, h2, rfl⟩ := resolveAux_deps_cons_ok h
        rcases List.mem_append.mp hy with hy | hy
        · exact ihp _ _ _ _ _ h1 y hy d hd
        · exact ihd _ _ _ _ _ h2 y hy d hd

theorem TopoFrom_congr {m : Manifest} :
    ∀ {l V V' : List String}, (∀ x, x ∈ V ↔ x ∈ V') →
      TopoFrom m V l → TopoFrom m V' l := by
  intro l
  induction l with
  | nil => intro V V' _ _; trivial
  | cons y rest ih =>
    intro V V' hvv h
    obtain ⟨hd, ht⟩ := h
    refine ⟨fun d hdep => (hvv d).mp (hd d hdep), ?_⟩
    exact ih (fun x => by simp only [List.mem_cons, hvv x]) ht

theorem TopoFrom_append {m : Manifest} :
    ∀ {l₁ l₂ V V' : List String}, TopoFrom m V l₁ → TopoFrom m V' l₂ →
      (∀ x, x ∈ V' ↔ x ∈ l₁ ∨ x ∈ V) → TopoFrom m V (l₁ ++ l₂) := by
  intro l₁
  induction l₁ with
  | nil =>
    intro l₂ V V' _ h2 hvv
    exact TopoFrom_congr (fun x => by rw [hvv x]; simp) h2
  | cons a l₁ ih =>
    intro l₂ V V' h1 h2 hvv
    obtain ⟨hd, ht⟩ := h1
    refine ⟨hd, ?_⟩
    refine ih ht h2 (fun x => ?_)
    rw [hvv x]
    simp only [List.mem_cons]
    tauto

theorem TopoFrom_drop {m : Manifest} :
    ∀ {l : List String} {a : String} {V : List String},
      TopoFrom m (a :: V) l → (∀ y ∈ l, a ∉ depsOf m y) → TopoFrom m V l := by
  intro l
  induction l with
  | nil => intro a V _ _; trivial
  | cons y rest ih =>
    intro a V h hna
    obtain ⟨hd, ht⟩ := h
    constructor
    · intro d hdep
      rcases List.mem_cons.mp (hd d hdep) with rfl | hdv
      · exact absurd hdep (hna y (List.mem_cons_self _ _))
      · exact hdv
    · have hswap : TopoFrom m (a :: y :: V) rest :=
        TopoFrom_congr (fun x => by simp only [List.mem_cons]; tauto) ht
      exact ih hswap (fun z hz => hna z (List.mem_cons_of_mem _ hz))

theorem TopoFrom_before {m : Manifest} :
    ∀ {l₁ : List String} {V : List String} {y : String} {l₂ : List String},
      TopoFrom m V (l₁ ++ y :: l₂) → ∀ d ∈ depsOf m y, d ∈ V ∨ d ∈ l₁ := by
  intro l₁
  induction l₁ with
  | nil =>
    intro V y l₂ h d hd
    obtain ⟨h1, _⟩ := h
    exact Or.inl (h1 d hd)
  | cons a l₁ ih =>
    intro V y l₂ h d hd
    obtain ⟨_, ht⟩ := h
    rcases ih ht d hd with h | h
    · rcases List.mem_cons.mp h with rfl | h
      · exact Or.inr (List.mem_cons_self _ _)
      · exact Or.inl h
    · exact Or.inr (List.mem_cons_of_mem _ h)

theorem resolveAux_topo_spec :
    ∀ (fuel : Nat) (m : Manifest),
      (∀ name visited path out v',
        resolveAux m fuel (.pkg name) visited path = .ok (out, v') →
        TopoFrom m visited out) ∧
      (∀ ds visited path out v',
        resolveAux m fuel (.deps ds) visited path = .ok (out, v') →
        TopoFrom m visited out) := by
  intro fuel m
  induction fuel with
  | zero =>
    constructor <;> (intro _ _ _ _ _ h; exact absurd h (by rw [resolveAux_zero]; simp))
  | succ fuel ih =>
    obtain ⟨ihp, ihd⟩ := ih
    constructor
    · intro name visited path out v' h
      obtain ⟨hp, hcase⟩ := resolveAux_pkg_ok h
      rcases hcase with ⟨hv, rfl, rfl⟩ | ⟨hv, pkg, res, hf, hrec, rfl⟩
      · trivial
      · have hres' : TopoFrom m (name :: visited) res := ihd _ _ _ _ _ hrec
        have hnoname : ∀ y ∈ res, name ∉ depsOf m y := by
          intro y hy hdep
          exact (resolveAux_no_back_edge fuel m).2 _ _ _ _ _ hrec y hy name hdep
            (List.mem_append_right path (List.mem_singleton.mpr rfl))
        have hres : TopoFrom m visited res := TopoFrom_drop hres' hnoname
        have hdeps : ∀ d ∈ depsOf m name, d ∈ visited ∨ d ∈ res := by
          intro d hd
          have hd' : d ∈ pkg.dependencies := (depsOf_eq_of_find hf) ▸ hd
          have hdv : d ∈ v' := resolveAux_deps_mem_visited fuel m _ _ _ _ _ hrec d hd'
          have hdiff : d ≠ name := by
            intro heq
            exact resolveAux_deps_not_mem_path fuel m _ _ _ _ _ hrec d hd'
              (heq ▸ List.mem_append_right path (List.mem_singleton.mpr rfl))
          rcases (resolveAux_visited_iff hrec d).mp hdv with hdv | hdv
          · rcases List.mem_cons.mp hdv with heq | hdv
            · exact absurd heq hdiff
            · exact Or.inl hdv
          · exact Or.inr hdv
        refine TopoFrom_append hres ?_ (fun x => List.mem_append)
        refine ⟨?_, trivial⟩
        intro d hd
        rcases hdeps d hd with h | h
        · exact List.mem_append_right res h
        · exact List.mem_append_left visited h
    · intro ds visited path out v' h
      cases ds with
      | nil =>
        obtain ⟨rfl, rfl⟩ := resolveAux_deps_nil_ok h
        trivial
      | cons d0 ds =>
        obtain ⟨r₁, v₁, r₂, h1, h2, rfl⟩ := resolveAux_deps_cons_ok h
        exact TopoFrom_append (ihp _ _ _ _ _ h1) (ihd _ _ _ _ _ h2)
          (fun x => Iff.trans (resolveAux_visited_iff h1 x) or_comm)

theorem sum_map_filter_ne {w : String → Nat} {a : String} :
    ∀ {l : List String}, l.Nodup → a ∈ l →
      (l.map w).sum =
        w a + ((l.filter (fun x => decide (x ≠ a))).map w).sum := by
  intro l
  induction l with
  | nil => intro _ ha; cases ha
  | cons b l ih =>
    intro hnd ha
    rcases List.mem_cons.mp ha with rfl | ha'
    · have hna : a ∉ l := (List.nodup_cons.mp hnd).1
      have hfl : l.filter (fun x => decide (x ≠ a)) = l :=
        List.filter_eq_self.mpr (fun x hx => by
          simp only [decide_eq_true_eq]
          rintro rfl
          exact hna hx)
      have hcons : (a :: l).filter (fun x => decide (x ≠ a)) = l := by
        rw [List.filter_cons_of_neg (by simp), hfl]
      rw [hcons, List.map_cons, List.sum_cons]
    · have hba : b ≠ a := by
        rintro rfl
        exact (List.nodup_cons.mp hnd).1 ha'
      have hih := ih (List.nodup_cons.mp hnd).2 ha'
      have hcons : (b :: l).filter (fun x => decide (x ≠ a)) =
          b :: l.filter (fun x => decide (x ≠ a)) := by
        rw [List.filter_cons_of_pos (by simp [hba])]
      rw [List.map_cons, List.sum_cons, hcons, List.map_cons, List.sum_cons, hih]
      omega

theorem resolveCost_split {m : Manifest} {name : String} {visited : List String}
    (hmem : name ∈ manifestNames m) (hnv : name ∉ visited) :
    resolveCost m visited = pkgWeight m name + resolveCost m (name :: visited) := by
  unfold resolveCost
  have hnd : ((manifestNames m).filter (fun x => decide (x ∉ visited))).Nodup :=
    (List.nodup_dedup _).filter _
  have hmem' : name ∈ (manifestNames m).filter (fun x => decide (x ∉ visited)) :=
    List.mem_filter.mpr ⟨hmem, by simp [hnv]⟩
  have hff : (manifestNames m).filter (fun x => decide (x ∉ name :: visited)) =
      ((manifestNames m).filter (fun x => decide (x ∉ visited))).filter
        (fun x => decide (x ≠ name)) := by
    rw [List.filter_filter]
    apply List.filter_congr
    intro x _
    by_cases h1 : x = name <;> by_cases h2 : x ∈ visited <;>
      simp [h1, h2, List.mem_cons]
  rw [hff]
  exact sum_map_filter_ne hnd hmem'

theorem filter_sublist_of_imp {α : Type} {p q : α → Bool}
    (l : List α) (h : ∀ a, p a = true → q a = true) :
    (l.filter p).Sublist (l.filter q) := by
  induction l with
  | nil => simp
  | cons a l ih =>
    by_cases hp : p a = true
    · rw [List.filter_cons_of_pos hp, List.filter_cons_of_pos (h a hp)]
      exact ih.cons₂ a
    · rw [List.filter_cons_of_neg (by simpa using hp)]
      by_cases hq : q a = true
      · rw [List.filter_cons_of_pos hq]
        exact ih.cons a
      · rw [List.filter_cons_of_neg (by simpa using hq)]
        exact ih

theorem sum_le_of_sublist {l₁ l₂ : List Nat} (h : l₁.Sublist l₂) :
    l₁.sum ≤ l₂.sum := by
  induction h with
  | slnil => exact le_refl _
  | cons a h ih => simp only [List.sum_cons]; omega
  | cons₂ a h ih => simp only [List.sum_cons]; omega

theorem resolveCost_mono {m : Manifest} {V V' : List String}
    (h : ∀ x ∈ V, x ∈ V') : resolveCost m V' ≤ resolveCost m V := by
  unfold resolveCost
  apply sum_le_of_sublist
  apply List.Sublist.map
  apply filter_sublist_of_imp
  intro a ha
  simp only [decide_eq_true_eq] at ha ⊢
  exact fun hmem => ha (h a hmem)

theorem resolveAux_no_fuel_err :
    ∀ (fuel : Nat) (m : Manifest),
      (∀ name visited path, resolveCost m visited < fuel →
        resolveAux m fuel (.pkg name) visited path ≠ .error .outOfFuel) ∧
      (∀ ds visited path, resolveCost m visited + ds.length < fuel →
        resolveAux m fuel (.deps ds) visited path ≠ .error .outOfFuel) := by
  intro fuel
  induction fuel with
  | zero =>
    intro m
    constructor
    · intro name visited path hc
      omega
    · intro ds visited path hc
      omega
  | succ fuel ih =>
    intro m
    obtain ⟨ihp, ihd⟩ := ih m
    constructor
    · intro name visited path hc heq
      rcases resolveAux_pkg_err heq with ⟨_, he⟩ | ⟨_, _, _, he⟩ |
        ⟨_, hv, pkg, hf, hrec⟩
      · cases he
      · cases he
      · have hsplit := resolveCost_split (mem_manifestNames_of_find hf) hv
        have hw : pkgWeight m name = 2 + pkg.dependencies.length := by
          rw [pkgWeight, depsOf_eq_of_find hf]
        exact ihd pkg.dependencies (name :: visited) (path ++ [name])
          (by omega) hrec
    · intro ds visited path hc heq
      cases ds with
      | nil => rw [resolveAux_deps_nil] at heq; cases heq
      | cons d ds =>
        rcases resolveAux_deps_cons_err heq with h1 | ⟨r₁, v₁, h1, h2⟩
        · refine ihp d visited path ?_ h1
          simp only [List.length_cons] at hc
          omega
        · have hle := resolveCost_mono (m := m) (resolveAux_visited_mono h1)
          refine ihd ds v₁ path ?_ h2
          simp only [List.length_cons] at hc
          omega

theorem resolve_err_inv {m : Manifest} {root : String} {e : ResolveError}
    (h : resolve m root = .error e) :
    resolveAux m (resolveFuel m) (.pkg root) [] [] = .error e := by
  unfold resolve build_dependency_graph at h
  cases hb : resolveAux m (resolveFuel m) (.pkg root) [] [] with
  | error e' =>
    rw [hb] at h
    simp only [Except.error.injEq] at h
    rw [h]
  | ok pr =>
    obtain ⟨o, v⟩ := pr
    rw [hb] at h
    simp at h

theorem resolve_ok_inv {m : Manifest} {root : String} {order : List String}
    (h : resolve m root = .ok order) :
    ∃ v', resolveAux m (resolveFuel m) (.pkg root) [] [] = .ok (order, v') := by
  unfold resolve build_dependency_graph at h
  cases hb : resolveAux m (resolveFuel m) (.pkg root) [] [] with
  | error e =>
    rw [hb] at h
    simp at h
  | ok pr =>
    obtain ⟨o, v⟩ := pr
    rw [hb] at h
    simp only [Except.ok.injEq] at h
    exact ⟨v, by rw [h]⟩

theorem resolve_eq_ok_of_aux {m : Manifest} {root : String}
    {out v' : List String}
    (hb : resolveAux m (resolveFuel m) (.pkg root) [] [] = .ok (out, v')) :
    resolve m root = .ok out := by
  unfold resolve build_dependency_graph
  rw [hb]

theorem resolveAux_success :
    ∀ (fuel : Nat) (m : Manifest),
      (∀ name visited path,
        resolveCost m visited < fuel →
        (∀ x, Reach m name x → (findPackage m x).isSome) →
        (∀ x, Reach m name x → ¬TransDep m x x) →
        (∀ p ∈ path, TransDep m p name) →
        ∃ out v', resolveAux m fuel (.pkg name) visited path = .ok (out, v')) ∧
      (∀ ds visited path,
        resolveCost m visited + ds.length < fuel →
        (∀ d ∈ ds, ∀ x, Reach m d x → (findPackage m x).isSome) →
        (∀ d ∈ ds, ∀ x, Reach m d x → ¬TransDep m x x) →
        (∀ p ∈ path, ∀ d ∈ ds, TransDep m p d) →
        ∃ out v', resolveAux m fuel (.deps ds) visited path = .ok (out, v')) := by
  intro fuel
  induction fuel with
  | zero =>
    intro m
    constructor
    · intro name visited path hc
      omega
    · intro ds visited path hc
      omega
  | succ fuel ih =>
    intro m
    obtain ⟨ihp, ihd⟩ := ih m
    constructor
    · intro name visited path hc hfound hacyc hpath
      have hp : name ∉ path := by
        intro hmem
        exact hacyc name (Reach.refl name) (hpath name hmem)
      simp only [resolveAux, if_neg hp]
      by_cases hv : name ∈ visited
      · rw [if_pos hv]
        exact ⟨[], visited, rfl⟩
      rw [if_neg hv]
      obtain ⟨pkg, hf⟩ := Option.isSome_iff_exists.mp (hfound name (Reach.refl name))
      rw [hf]
      have hdeq : depsOf m name = pkg.dependencies := depsOf_eq_of_find hf
      have hsplit := resolveCost_split (mem_manifestNames_of_find hf) hv
      have hw : pkgWeight m name = 2 + pkg.dependencies.length := by
        rw [pkgWeight, hdeq]
      obtain ⟨res, v', hrec⟩ := ihd pkg.dependencies (name :: visited)
        (path ++ [name]) (by omega)
        (fun d hd x hr => hfound x (Reach.step (hdeq ▸ hd) hr))
        (fun d hd x hr => hacyc x (Reach.step (hdeq ▸ hd) hr))
        (by
          intro p hpm d hd
          rcases List.mem_append.mp hpm with hpm | hpm
          · obtain ⟨d0, hd0, hr0⟩ := hpath p hpm
            exact ⟨d0, hd0, hr0.snoc (hdeq ▸ hd)⟩
          · rw [List.mem_singleton] at hpm
            subst hpm
            exact ⟨d, hdeq ▸ hd, Reach.refl d⟩)
      refine ⟨res ++ [name], v', ?_⟩
      simp only [hrec]
    · intro ds visited path hc hfound hacyc hpath
      cases ds with
      | nil => exact ⟨[], visited, rfl⟩
      | cons d ds =>
        simp only [List.length_cons] at hc
        obtain ⟨r₁, v₁, h1⟩ := ihp d visited path (by omega)
          (hfound d (List.mem_cons_self _ _))
          (hacyc d (List.mem_cons_self _ _))
          (fun p hp => hpath p hp d (List.mem_cons_self _ _))
        have hle := resolveCost_mono (m := m) (resolveAux_visited_mono h1)
        obtain ⟨r₂, v₂, h2⟩ := ihd ds v₁ path (by omega)
          (fun d' hd' => hfound d' (List.mem_cons_of_mem _ hd'))
          (fun d' hd' => hacyc d' (List.mem_cons_of_mem _ hd'))
          (fun p hp d' hd' => hpath p hp d' (List.mem_cons_of_mem _ hd'))
        refine ⟨r₁ ++ r₂, v₂, ?_⟩
        simp only [resolveAux, h1, h2]

theorem resolveAux_notFound_reach :
    ∀ (fuel : Nat) (m : Manifest),
      (∀ name visited path x,
        resolveAux m fuel (.pkg name) visited path = .error (.notFound x) →
        Reach m name x ∧ findPackage m x = none) ∧
      (∀ ds visited path x,
        resolveAux m fuel (.deps ds) visited path = .error (.notFound x) →
        ∃ d ∈ ds, Reach m d x ∧ findPackage m x = none) := by
  intro fuel
  induction fuel with
  | zero =>
    intro m
    constructor <;>
      (intro _ _ _ x h; rw [resolveAux_zero] at h; exact absurd h (by simp))
  | succ fuel ih =>
    intro m
    obtain ⟨ihp, ihd⟩ := ih m
    constructor
    · intro name visited path x h
      rcases resolveAux_pkg_err h with ⟨_, he⟩ | ⟨_, _, hf, he⟩ |
        ⟨_, _, pkg, hf, hrec⟩
      · cases he
      · have hx : x = name := by
          cases he
          rfl
        subst hx
        exact ⟨Reach.refl x, hf⟩
      · obtain ⟨d, hd, hr, hn⟩ := ihd _ _ _ _ hrec
        exact ⟨Reach.step ((depsOf_eq_of_find hf) ▸ hd) hr, hn⟩
    · intro ds visited path x h
      cases ds with
      | nil => rw [resolveAux_deps_nil] at h; cases h
      | cons d ds =>
        rcases resolveAux_deps_cons_err h with h1 | ⟨r₁, v₁, h1, h2⟩
        · obtain ⟨hr, hn⟩ := ihp _ _ _ _ h1
          exact ⟨d, List.mem_cons_self _ _, hr, hn⟩
        · obtain ⟨d', hd', hr, hn⟩ := ihd _ _ _ _ h2
          exact ⟨d', List.mem_cons_of_mem _ hd', hr, hn⟩

theorem indexOf_append_lt {l₁ rest : List String} {d : String} (hd : d ∈ l₁) :
    (l₁ ++ rest).indexOf d < l₁.length := by
  rw [List.indexOf_append_of_mem hd]
  exact List.indexOf_lt_length.mpr hd

theorem indexOf_append_self {l₁ l₂ : List String} {y : String} (hy : y ∉ l₁) :
    (l₁ ++ y :: l₂).indexOf y = l₁.length := by
  rw [List.indexOf_append_of_not_mem hy, List.indexOf_cons_self]
  omega

/-- What a successful `resolve` run guarantees: no duplicates, exactly the
reachable names, and every (transitive) dependency strictly precedes its
dependent. -/
theorem resolve_ok_spec {m : Manifest} {root : String} {order : List String}
    (h : resolve m root = .ok order) :
    order.Nodup ∧ (∀ x, x ∈ order ↔ Reach m root x) ∧
    (∀ b a, b ∈ order → TransDep m b a →
      a ∈ order ∧ order.indexOf a < order.indexOf b) := by
  obtain ⟨v', hb⟩ := resolve_ok_inv h
  have hnodup : order.Nodup :=
    ((resolveAux_nodup_spec (resolveFuel m) m).1 _ _ _ _ _ hb).1
  have htopo : TopoFrom m [] order :=
    (resolveAux_topo_spec (resolveFuel m) m).1 _ _ _ _ _ hb
  have hroot : root ∈ order := by
    cases hfuel : resolveFuel m with
    | zero =>
      rw [hfuel] at hb
      exact absurd hb (by rw [resolveAux_zero]; simp)
    | succ n =>
      rw [hfuel] at hb
      obtain ⟨hp, hcase⟩ := resolveAux_pkg_ok hb
      rcases hcase with ⟨hv, _, _⟩ | ⟨_, pkg, res, _, _, rfl⟩
      · cases hv
      · exact List.mem_append_right res (List.mem_singleton.mpr rfl)
  have hsound : ∀ x ∈ order, Reach m root x :=
    (resolveAux_sound_spec (resolveFuel m) m).1 _ _ _ _ _ hb
  have hstep : ∀ y ∈ order, ∀ d ∈ depsOf m y,
      d ∈ order ∧ order.indexOf d < order.indexOf y := by
    intro y hy d hd
    obtain ⟨l₁, l₂, rfl⟩ := List.append_of_mem hy
    rcases TopoFrom_before htopo d hd with h0 | h1
    · cases h0
    · have hynotl1 : y ∉ l₁ := by
        rw [List.nodup_append] at hnodup
        exact fun hy1 => hnodup.2.2 hy1 (List.mem_cons_self _ _)
      refine ⟨List.mem_append_left _ h1, ?_⟩
      calc (l₁ ++ y :: l₂).indexOf d < l₁.length := indexOf_append_lt h1
        _ = (l₁ ++ y :: l₂).indexOf y := (indexOf_append_self hynotl1).symm
  have hreachle : ∀ x y, Reach m x y → x ∈ order →
      y ∈ order ∧ order.indexOf y ≤ order.indexOf x := by
    intro x y hr
    induction hr with
    | refl z => exact fun hx => ⟨hx, le_refl _⟩
    | step hd _ ih =>
      intro hx
      obtain ⟨hd', hlt⟩ := hstep _ hx _ hd
      obtain ⟨hy, hle⟩ := ih hd'
      exact ⟨hy, le_trans hle (le_of_lt hlt)⟩
  refine ⟨hnodup, ?_, ?_⟩
  · intro x
    exact ⟨fun hx => hsound x hx, fun hr => (hreachle root x hr hroot).1⟩
  · rintro b a hbmem ⟨d, hd, hr⟩
    obtain ⟨hd', hlt⟩ := hstep b hbmem d hd
    obtain ⟨ha, hle⟩ := hreachle d a hr hd'
    exact ⟨ha, lt_of_le_of_lt hle hlt⟩

/-- Counterexample to claim C1 as stated: an acyclic manifest whose requested
package is present but lists an undefined dependency name makes the resolver
fail with NotFoundError instead of returning the reachable names. -/
theorem resolve_missing_dep_cex :
    (findPackage missingDepManifest "A").isSome = true ∧
    (∀ x, ¬TransDep missingDepManifest x x) ∧
    resolve missingDepManifest "A" = .error (.notFound "M") :=
  ⟨by rfl, acyclic_of_rank missingDepRank (by decide), by rfl⟩

/-- Claim C1 (amended): for every manifest with no dependency cycles, every
requested name present in the manifest, and every reachable name present in
the manifest, the resolver returns each reachable package name exactly once,
with every transitive dependency strictly preceding its dependent; at the
spec's example it returns `[D, B, C, A]` (see the witness). -/
theorem resolve_acyclic_topo_order (m : Manifest) (root : String)
    (_hfound : (findPackage m root).isSome)
    (hclosed : ∀ x, Reach m root x → (findPackage m x).isSome)
    (hacyclic : ∀ x, ¬TransDep m x x) :
    ∃ order, resolve m root = .ok order ∧ order.Nodup ∧
      (∀ x, x ∈ order ↔ Reach m root x) ∧
      (∀ b a, b ∈ order → TransDep m b a →
        a ∈ order ∧ order.indexOf a < order.indexOf b) := by
  obtain ⟨out, v', hok⟩ := (resolveAux_success (resolveFuel m) m).1 root [] []
    (by rw [resolveFuel]; omega) hclosed (fun x _ => hacyclic x)
    (by intro p hp; cases hp)
  have hres : resolve m root = .ok out := resolve_eq_ok_of_aux hok
  obtain ⟨h1, h2, h3⟩ := resolve_ok_spec hres
  exact ⟨out, hres, h1, h2, h3⟩

/-- Witness for the amended C1 at the spec's example manifest, including the
concrete plan `[D, B, C, A]`. -/
theorem resolve_acyclic_topo_order_witness :
    resolve exampleManifest "A" = .ok ["D", "B", "C", "A"] ∧
    (∃ order, resolve exampleManifest "A" = .ok order ∧ order.Nodup ∧
      (∀ x, x ∈ order ↔ Reach exampleManifest "A" x) ∧
      (∀ b a, b ∈ order → TransDep exampleManifest b a →
        a ∈ order ∧ order.indexOf a < order.indexOf b)) :=
  ⟨by rfl,
    resolve_acyclic_topo_order exampleManifest "A" (by rfl)
      (fun x hr => found_of_reach (by decide) hr (by rfl))
      (acyclic_of_rank exampleRank (by decide))⟩

/-- Counterexample to claim C2 as stated: the manifest
`{A deps:[M,B], B deps:[A]}` has the cycle `A -> B -> A` reachable from `A`,
but the resolver hits the undefined name `M` first and fails with
NotFoundError, not CycleError. -/
theorem resolve_cycle_not_reported_cex :
    TransDep cycleWithMissingManifest "A" "A" ∧
    resolve cycleWithMissingManifest "A" = .error (.notFound "M") ∧
    ∀ chain, resolve cycleWithMissingManifest "A" ≠
      .error (.cycleDetected chain) := by
  refine ⟨⟨"B", by decide, Reach.step (by decide) (Reach.refl "A")⟩, by rfl, ?_⟩
  intro chain h
  rw [show resolve cycleWithMissingManifest "A" = .error (.notFound "M")
    from rfl] at h
  simp at h

/-- Claim C2 (amended): for every manifest in which every name reachable from
the requested package is present and a dependency cycle is reachable from the
requested package, the resolver fails with a CycleError (whose chain is the
DFS path joined with " -> ") and never returns an order; at the spec's example
the chain is `A -> B -> A` (see the witness). -/
theorem resolve_cycle_detected (m : Manifest) (root : String)
    (hclosed : ∀ x, Reach m root x → (findPackage m x).isSome)
    (hcycle : ∃ c, Reach m root c ∧ TransDep m c c) :
    ∃ chain, resolve m root = .error (.cycleDetected chain) := by
  obtain ⟨c, hrc, hcc⟩ := hcycle
  cases hres : resolve m root with
  | ok order =>
    exfalso
    obtain ⟨hnodup, hmem, htd⟩ := resolve_ok_spec hres
    have hc : c ∈ order := (hmem c).mpr hrc
    obtain ⟨_, hlt⟩ := htd c c hc hcc
    omega
  | error e =>
    cases e with
    | cycleDetected chain => exact ⟨chain, rfl⟩
    | notFound x =>
      exfalso
      have hb := resolve_err_inv hres
      obtain ⟨hr, hn⟩ :=
        (resolveAux_notFound_reach (resolveFuel m) m).1 root [] [] x hb
      have hsome := hclosed x hr
      rw [hn] at hsome
      simp at hsome
    | outOfFuel =>
      exfalso
      have hb := resolve_err_inv hres
      exact (resolveAux_no_fuel_err (resolveFuel m) m).1 root [] []
        (by rw [resolveFuel]; omega) hb

/-- Witness for the amended C2 at the spec's cyclic example, including the
concrete chain `A -> B -> A`. -/
theorem resolve_cycle_detected_witness :
    resolve cycleManifest "A" = .error (.cycleDetected "A -> B -> A") ∧
    (∃ chain, resolve cycleManifest "A" = .error (.cycleDetected chain)) :=
  ⟨by rfl,
    resolve_cycle_detected cycleManifest "A"
      (fun x hr => found_of_reach (by decide) hr (by rfl))
      ⟨"A", Reach.refl "A", "B", by decide,
        Reach.step (by decide) (Reach.refl "A")⟩⟩

/-- Witness for the amended C4 at a concrete input. -/
theorem select_universal2_over_any_witness :
    select_best_package_variant [anyVariant, u2Variant] "macosx_11_0_arm64" =
      some u2Variant ∧
    (∃ v, select_best_package_variant [anyVariant, u2Variant] "macosx_11_0_arm64" =
      some v ∧ v.platform_tag = "macosx_10_9_universal2") ∧
    (∃ v, select_best_package_variant [anyVariant, u2Variant] "linux_x86_64" =
      some v ∧ v.platform_tag = "any") :=
  ⟨by rfl,
    ((select_universal2_over_any [anyVariant, u2Variant] "macosx_11_0_arm64").2
      ⟨anyVariant, by decide, by rfl⟩ ⟨u2Variant, by decide, by rfl⟩
      (by decide)).1 (Or.inr rfl),
    ((select_universal2_over_any [anyVariant, u2Variant] "linux_x86_64").2
      ⟨anyVariant, by decide, by rfl⟩ ⟨u2Variant, by decide, by rfl⟩
      (by decide)).2 (by decide) (by decide)⟩

end Mip
